import Mathlib

/-!
Shallow embedding of `pypdl/utls.py` (segment planner, combiner, download
workers) together with proofs about the claims of the specification.

Modelling conventions:
* Python machine floats (binary64) are modelled exactly: a float value is the
  rational it denotes and every float-producing operation rounds its exact
  rational result to 53 significant bits with round-to-nearest, ties-to-even
  (`fl`).  All float values arising in this program are nonnegative and well
  inside the normal range, so neither subnormals nor overflow are modelled.
  Rationals are carried as unreduced numerator/denominator pairs of naturals
  (`NQ`) so that every operation is a kernel-computable `Nat` primitive; the
  denoted value is `NQ.val : ℚ`.
* `int(x)` on a nonnegative float is rational truncation (`pyTrunc`).
* File-system effects are explicit values: the sidecar read is an
  `Option Progress` argument (`none` = missing/unreadable/unparseable file;
  the source wraps the read in `try/except: pass`, so it never raises); the
  sidecar write is returned as an association list of JSON keys; segment
  files are given by their contents or sizes.
* The chunked HTTP stream of one `requests.get` call is an environment `Env`:
  the list of chunk sizes that arrive, whether the transport raises after
  them, and the observed value of the shared `threading.Event` at each poll.
-/

/-! ## Exact binary64 rounding ------------------------------------------- -/

/-- An unreduced nonnegative fraction: numerator and denominator. -/
structure NQ where
  num : ℕ
  den : ℕ
deriving DecidableEq

/-- The rational value denoted by a fraction. -/
def NQ.val (q : NQ) : ℚ := (q.num : ℚ) / (q.den : ℚ)

/-- Exact product of fractions (CPython multiplies floats exactly, then
rounds once; the rounding is applied separately by `fl`). -/
def NQ.mul (a b : NQ) : NQ := ⟨a.num * b.num, a.den * b.den⟩

/-- `q < k` for a natural `k`, by cross multiplication. -/
def NQ.ltNat (q : NQ) (k : ℕ) : Bool := q.num < k * q.den

/-- Bit length of `n` (`⌊log2 n⌋ + 1` for `n > 0`, else 0), computed with
explicit fuel so that the kernel can evaluate it. -/
def natBitsAux : ℕ → ℕ → ℕ
  | 0, _ => 0
  | fuel + 1, n => if n = 0 then 0 else natBitsAux fuel (n / 2) + 1

/-- Bit length of a natural number. -/
def natBits (n : ℕ) : ℕ := natBitsAux n n

/-- Round `A / B` to the nearest integer, ties to even. -/
def roundHalfEven (A B : ℕ) : ℕ :=
  if 2 * (A % B) < B then A / B
  else if B < 2 * (A % B) then A / B + 1
  else if A / B % 2 = 0 then A / B else A / B + 1

/-- `⌊log2 (q.num / q.den)⌋` for a positive fraction: the bit-length estimate
`natBits num - natBits den` is off by at most one, corrected by one
comparison. -/
def qlog2 (q : NQ) : ℤ :=
  let d : ℤ := (natBits q.num : ℤ) - (natBits q.den : ℤ)
  if 0 ≤ d then (if q.den * 2 ^ d.toNat ≤ q.num then d else d - 1)
  else (if q.den ≤ q.num * 2 ^ (-d).toNat then d else d - 1)

/-- Exponent of the unit in the last place when rounding `q` to 53 bits. -/
def flE (q : NQ) : ℤ := qlog2 q - 52

/-- Numerator of the scaled fraction `q / 2 ^ flE q`. -/
def flA (q : NQ) : ℕ :=
  if 0 ≤ flE q then q.num else q.num * 2 ^ (-flE q).toNat

/-- Denominator of the scaled fraction `q / 2 ^ flE q`. -/
def flB (q : NQ) : ℕ :=
  if 0 ≤ flE q then q.den * 2 ^ (flE q).toNat else q.den

/-- The 53-bit significand of the rounded value. -/
def flM (q : NQ) : ℕ := roundHalfEven (flA q) (flB q)

/-- Round a nonnegative fraction to the nearest binary64 value (round to
nearest, ties to even): the exact value CPython produces for float division
`a / b`, for int-to-float conversion, and — applied to the exact product —
for float multiplication, for operands in the normal range. -/
def fl (q : NQ) : NQ :=
  if q.num = 0 then ⟨0, 1⟩
  else if 0 ≤ flE q then ⟨flM q * 2 ^ (flE q).toNat, 1⟩
  else ⟨flM q, 2 ^ (-flE q).toNat⟩

/-- Float division `a / b` of Python integers. -/
def flDiv (a b : ℕ) : NQ := fl ⟨a, b⟩

/-- Int-to-float conversion `float(n)`. -/
def flOfNat (n : ℕ) : NQ := fl ⟨n, 1⟩

/-- Python `int()` of a nonnegative float: truncation of the denoted
rational. -/
def pyTrunc (q : NQ) : ℕ := q.num / q.den

/-! ## Planner: `create_segment_table` ----------------------------------- -/

def MEGABYTE : ℕ := 1048576
def BLOCKSIZE : ℕ := 4096
def BLOCKS : ℕ := 1024
def CHUNKSIZE : ℕ := BLOCKSIZE * BLOCKS

/-- `to_mb(size_in_bytes)`: float division `size_in_bytes / MEGABYTE`. -/
def to_mb (size_in_bytes : ℕ) : NQ := flDiv size_in_bytes MEGABYTE

/-- The `etag` argument, `Union[str, bool]` in the source. -/
inductive EtagV where
  | str (v : String)
  | bool (v : Bool)
deriving DecidableEq

/-- Python truthiness of a `Union[str, bool]` value. -/
def truthy : EtagV → Bool
  | .str v => v ≠ ""
  | .bool b => b

/-- JSON values appearing in the sidecar file. -/
inductive JVal where
  | str (s : String)
  | int (n : ℤ)
  | bool (b : Bool)
deriving DecidableEq

def etagJVal : EtagV → JVal
  | .str v => .str v
  | .bool b => .bool b

/-- Successfully parsed sidecar contents (`json.loads` result with the three
keys the source reads; a missing, unreadable or unparseable sidecar is
represented by `none` at the call site). -/
structure Progress where
  url : String
  etag : EtagV
  segments : ℕ
deriving DecidableEq

/-- One value of the returned segment dictionary, `dic[segment]`. -/
structure SegEntry where
  start : ℤ
  end_ : ℤ
  segment_size : ℤ
  segment_path : String
deriving DecidableEq

/-- The returned dictionary: keys `"url"`, `"segments"` and the integer keys
`0 .. segments-1` in insertion order (`entries[i]` is `dic[i]`). -/
structure SegTable where
  url : String
  segments : ℕ
  entries : List SegEntry
deriving DecidableEq

/-- Result of `create_segment_table`: the dictionary it returns plus the JSON
object it writes to `file_path + ".json"`. -/
structure CSTResult where
  written : List (String × JVal)
  table : SegTable
deriving DecidableEq

/-- `partition_size = size / segments` (float division). -/
def partition_size (size segments : ℕ) : NQ := flDiv size segments

/-- `int(partition_size * i)`: the `i`-th partition boundary.  The float
product converts `i` to a float and rounds the exact product once. -/
def segBoundary (size segments i : ℕ) : ℕ :=
  pyTrunc (fl ((partition_size size segments).mul (flOfNat i)))

/-- Loop body of `create_segment_table`: the entry stored at key `segment`. -/
def mkSegEntry (file_path : String) (size segments segment : ℕ) : SegEntry :=
  let start : ℤ := segBoundary size segments segment
  let end0 : ℤ := segBoundary size segments (segment + 1)
  let segment_size := end0 - start
  let end_ := if segment ≠ segments - 1 then end0 - 1 else end0
  { start := start, end_ := end_, segment_size := segment_size,
    segment_path := file_path ++ "." ++ toString segment }

/-- `create_segment_table(url, file_path, segments, size, etag)`.  The sidecar
read (`json.loads(progress_file.read_text())` under `try/except: pass`) is
passed in as `sidecar`; the function never raises. -/
def create_segment_table (url file_path : String) (segments size : ℕ)
    (etag : EtagV) (sidecar : Option Progress) : CSTResult :=
  -- segments = 5 if (segments > 5) and (to_mb(size) < 50) else segments
  let segments : ℕ := if 5 < segments ∧ (to_mb size).ltNat 50 then 5 else segments
  -- if etag and progress["url"] == url and progress["etag"] == etag:
  --     segments = progress["segments"]
  let segments : ℕ :=
    match sidecar with
    | some progress =>
        if truthy etag ∧ progress.url = url ∧ progress.etag = etag then
          progress.segments
        else segments
    | none => segments
  -- progress_file.write_text(json.dumps({...}))
  let written : List (String × JVal) :=
    [("url", .str url), ("etag", etagJVal etag), ("segments", .int (segments : ℤ))]
  { written := written,
    table :=
      { url := url, segments := segments,
        entries := (List.range segments).map (mkSegEntry file_path size segments) } }

/-- Sum of the stored `segment_size` values of a table. -/
def sumSizes (t : SegTable) : ℤ := (t.entries.map SegEntry.segment_size).sum

/-! ## Combiner: `combine_files` ----------------------------------------- -/

/-- File-system effects of `combine_files`, in the order they happen. -/
inductive FsEvent where
  | copied (path : String)
  | unlinked (path : String)
deriving DecidableEq

/-- The inner `while True` loop of `combine_files`: stream `src` into the
destination in blocks of `CHUNKSIZE` bytes. -/
def copyLoop (src dest : List ℕ) : List ℕ :=
  if src = [] then dest
  else copyLoop (src.drop CHUNKSIZE) (dest ++ src.take CHUNKSIZE)
termination_by src.length
decreasing_by
  simp only [List.length_drop]
  have : src.length ≠ 0 := by simpa [List.length_eq_zero] using by assumption
  have : 0 < CHUNKSIZE := by decide
  omega

/-- Body of the `for segment in range(segments)` loop of `combine_files`:
stream the segment file into the destination, then `unlink` it. -/
def combineStep (file_path : String) (contents : ℕ → List ℕ)
    (acc : List ℕ × List FsEvent) (segment : ℕ) : List ℕ × List FsEvent :=
  let segment_file := file_path ++ "." ++ toString segment
  (copyLoop (contents segment) acc.1,
   acc.2 ++ [.copied segment_file, .unlinked segment_file])

/-- `combine_files(file_path, segments)`.  Segment file `i` has contents
`contents i` (a byte list); returns the bytes written to the destination file
(opened with mode `"wb"`, hence initially empty) and the trace of
file-system events. -/
def combine_files (file_path : String) (contents : ℕ → List ℕ) (segments : ℕ) :
    List ℕ × List FsEvent :=
  let r := (List.range segments).foldl (combineStep file_path contents) ([], [])
  (r.1, r.2 ++ [.unlinked (file_path ++ ".json")])

/-! ## Workers: `Basicdown`, `Simpledown`, `Multidown` -------------------- -/

/-- One diagnostic record produced by `logging.error(f"(Thread: {id})
[{e.class}: {e}]")`: its information content. -/
structure Diag where
  threadId : ℕ
  errClass : String
  errMsg : String
deriving DecidableEq

/-- The environment of one `requests.get` call: `chunks` are the sizes of the
chunks that arrive successfully (in order); `errAtEnd` says whether the
transport then raises (instead of ending the stream normally); `flag i` is
the value of the shared `threading.Event` (as set by other threads) observed
by the `is_set` poll that follows chunk `i`. -/
structure Env where
  chunks : List ℕ
  errAtEnd : Bool
  errClass : String
  errMsg : String
  flag : ℕ → Bool

/-- File open mode. -/
inductive Mode where
  | wb
  | ab
deriving DecidableEq

/-- Mutable state of a `Basicdown` worker object, together with the state of
the resources it touches.  `curr` and `completed` are the object fields of
the same names; `interrupt` records whether this call has `set()` the shared
event; `file` is the byte size of the file at the worker's path;
`chunksWritten` counts chunk writes; `slept` counts `time.sleep(1)` calls;
`gets` counts issued `requests.get` calls; `logs` are diagnostics.
The `speed` field of the source (wall-clock dependent) is not modelled. -/
structure DState where
  curr : ℕ
  completed : Bool
  id : ℕ
  interrupt : Bool
  logs : List Diag
  slept : ℕ
  gets : ℕ
  file : ℕ
  chunksWritten : ℕ
deriving DecidableEq

/-- `Basicdown.__init__`: fresh worker state. -/
def initState (id : ℕ) : DState :=
  { curr := 0, completed := false, id := id, interrupt := false,
    logs := [], slept := 0, gets := 0, file := 0, chunksWritten := 0 }

/-- The `for chunk in r.iter_content(MEGABYTE)` loop: write the chunk, add
its length to `curr`, then poll the event and `break` if it is set.  Returns
the state and whether the loop exited via `break`. -/
def downloadLoop (flag : ℕ → Bool) : List ℕ → ℕ → DState → DState × Bool
  | [], _, st => (st, false)
  | c :: rest, i, st =>
      let st := { st with file := st.file + c, curr := st.curr + c,
                          chunksWritten := st.chunksWritten + 1 }
      if flag i then (st, true)
      else downloadLoop flag rest (i + 1) st

/-- `Basicdown.download(url, path, mode, **kwargs)`: open the file with
`mode`, stream chunks, and on a transport error set the shared event, sleep
one second and log a diagnostic; the exception is swallowed (`except`), so
the call always returns.  `completed` is never touched here. -/
def Basicdown.download (env : Env) (mode : Mode) (st : DState) : DState :=
  let st := { st with gets := st.gets + 1,
                      file := if mode = Mode.wb then 0 else st.file }
  let r := downloadLoop env.flag env.chunks 0 st
  if r.2 = false ∧ env.errAtEnd = true then
    { r.1 with interrupt := true, slept := r.1.slept + 1,
               logs := r.1.logs ++ [⟨r.1.id, env.errClass, env.errMsg⟩] }
  else r.1

/-- `Simpledown.worker`: download the whole file in mode `"wb"`, then set
`completed = True` (unconditionally in the source). -/
def Simpledown.worker (url file_path : String) (env : Env) : DState :=
  let st := Basicdown.download env Mode.wb (initState 0)
  { st with completed := true }

/-- The ranged request a `Multidown` worker issues. -/
structure Req where
  header : String
  mode : Mode
deriving DecidableEq

/-- Result of `Multidown.worker`: final worker state, whether the stale
segment file was deleted, the value of `curr` after resume detection, and
the issued request (if any). -/
structure MDResult where
  st : DState
  deleted : Bool
  resumeOffset : ℕ
  request : Option Req
deriving DecidableEq

/-- The final `if self.curr == size: self.completed = True` line of
`Multidown.worker` (it runs after the conditional download, on whichever
state that leaves behind). -/
def markCompleted (e : SegEntry) (st : DState) : DState :=
  if (st.curr : ℤ) = e.segment_size then { st with completed := true } else st

/-- `Multidown.worker`: resume from an existing segment file (`existing` is
its size, `none` if absent), then download the missing byte range in mode
`"ab"`; finally mark `completed` when `curr == size`. -/
def Multidown.worker (url : String) (segment_id : ℕ) (e : SegEntry)
    (existing : Option ℕ) (env : Env) : MDResult :=
  -- if segment_path.exists(): ...
  let del_curr : Bool × ℕ :=
    match existing with
    | none => (false, 0)
    | some downloaded_size =>
        if (downloaded_size : ℤ) > e.segment_size then (true, 0)
        else (false, downloaded_size)
  let st1 := { initState segment_id with curr := del_curr.2, file := del_curr.2 }
  if (st1.curr : ℤ) < e.segment_size then
    -- kwargs["headers"].update({"range": f"bytes={start}-{end}"})
    let startv : ℤ := e.start + (st1.curr : ℤ)
    let req : Req := { header := "bytes=" ++ toString startv ++ "-" ++ toString e.end_,
                       mode := Mode.ab }
    { st := markCompleted e (Basicdown.download env Mode.ab st1),
      deleted := del_curr.1, resumeOffset := del_curr.2, request := some req }
  else
    { st := markCompleted e st1,
      deleted := del_curr.1, resumeOffset := del_curr.2, request := none }
/-! ## Value-level facts about the binary64 model ------------------------- -/

theorem natBitsAux_spec : ∀ fuel n, n ≤ fuel →
    n < 2 ^ natBitsAux fuel n ∧ (n ≠ 0 → 2 ^ (natBitsAux fuel n - 1) ≤ n) := by
  intro fuel
  induction fuel with
  | zero =>
      intro n hn
      have : n = 0 := Nat.le_zero.mp hn
      subst this
      simp [natBitsAux]
  | succ fuel ih =>
      intro n hn
      by_cases h0 : n = 0
      · subst h0; simp [natBitsAux]
      · have hhalf : n / 2 ≤ fuel := by omega
        obtain ⟨ih1, ih2⟩ := ih (n / 2) hhalf
        constructor
        · simp only [natBitsAux, h0, if_false]
          have : n < 2 * (n / 2) + 2 := by omega
          calc n < 2 * (n / 2) + 2 := this
            _ ≤ 2 * 2 ^ natBitsAux fuel (n / 2) := by omega
            _ = 2 ^ (natBitsAux fuel (n / 2) + 1) := by ring
        · intro _
          simp only [natBitsAux, h0, if_false]
          by_cases h1 : n / 2 = 0
          · have : natBitsAux fuel (n / 2) = 0 := by
              cases fuel <;> simp [natBitsAux, h1]
            simp [this]
            omega
          · have hge := ih2 h1
            have hb : 1 ≤ natBitsAux fuel (n / 2) := by
              by_contra hlt
              have : natBitsAux fuel (n / 2) = 0 := by omega
              rw [this] at ih1
              omega
            have : 2 ^ (natBitsAux fuel (n / 2) + 1 - 1) = 2 * 2 ^ (natBitsAux fuel (n / 2) - 1) := by
              rw [Nat.add_sub_cancel]
              conv_lhs => rw [show natBitsAux fuel (n / 2) = natBitsAux fuel (n / 2) - 1 + 1 by omega]
              ring
            rw [this]
            omega

theorem natBits_lt (n : ℕ) : n < 2 ^ natBits n :=
  (natBitsAux_spec n n le_rfl).1

theorem natBits_le (n : ℕ) (h : n ≠ 0) : 2 ^ (natBits n - 1) ≤ n :=
  (natBitsAux_spec n n le_rfl).2 h

theorem natBits_pos (n : ℕ) (h : n ≠ 0) : 1 ≤ natBits n := by
  by_contra hlt
  have h0 : natBits n = 0 := by omega
  have := natBits_lt n
  rw [h0] at this
  omega

theorem zpow_toNat_cast (d : ℤ) (hd : 0 ≤ d) : ((2 ^ d.toNat : ℕ) : ℚ) = (2:ℚ) ^ d := by
  rw [Nat.cast_pow, Nat.cast_ofNat, ← zpow_natCast, Int.toNat_of_nonneg hd]

theorem natBits_cast_le (n : ℕ) (h : n ≠ 0) : (2:ℚ) ^ ((natBits n : ℤ) - 1) ≤ (n:ℚ) := by
  have h1 := natBits_le n h
  have h2 := natBits_pos n h
  have h3 : ((natBits n : ℤ) - 1) = ((natBits n - 1 : ℕ) : ℤ) := by omega
  rw [h3, zpow_natCast]
  exact_mod_cast h1

theorem natBits_cast_lt (n : ℕ) : (n:ℚ) < (2:ℚ) ^ (natBits n : ℤ) := by
  have h1 := natBits_lt n
  rw [zpow_natCast]
  exact_mod_cast h1

theorem qlog2_spec (q : NQ) (hn : 0 < q.num) (hd : 0 < q.den) :
    (2:ℚ) ^ qlog2 q ≤ q.val ∧ q.val < (2:ℚ) ^ (qlog2 q + 1) := by
  have hb : (0:ℚ) < q.den := by exact_mod_cast hd
  have hA1 := natBits_cast_le q.num (by omega)
  have hA2 := natBits_cast_lt q.num
  have hB1 := natBits_cast_le q.den (by omega)
  have hB2 := natBits_cast_lt q.den
  have hval : q.val = (q.num:ℚ) / (q.den:ℚ) := rfl
  set d : ℤ := (natBits q.num : ℤ) - (natBits q.den : ℤ) with hdd
  have hlow : (2:ℚ) ^ (d - 1) < q.val := by
    rw [hval, lt_div_iff hb]
    calc (2:ℚ) ^ (d - 1) * q.den
        < (2:ℚ) ^ (d - 1) * (2:ℚ) ^ (natBits q.den : ℤ) :=
          mul_lt_mul_of_pos_left hB2 (zpow_pos two_pos _)
      _ = (2:ℚ) ^ ((natBits q.num : ℤ) - 1) := by
          rw [← zpow_add₀ (two_ne_zero : (2:ℚ) ≠ 0)]; ring_nf
      _ ≤ q.num := hA1
  have hhigh : q.val < (2:ℚ) ^ (d + 1) := by
    rw [hval, div_lt_iff hb]
    calc (q.num : ℚ) < (2:ℚ) ^ (natBits q.num : ℤ) := hA2
      _ = (2:ℚ) ^ (d + 1) * (2:ℚ) ^ ((natBits q.den : ℤ) - 1) := by
          rw [← zpow_add₀ (two_ne_zero : (2:ℚ) ≠ 0)]; ring_nf
      _ ≤ (2:ℚ) ^ (d + 1) * q.den :=
          mul_le_mul_of_nonneg_left hB1 (zpow_pos two_pos _).le
  have hq2 : qlog2 q = if (2:ℚ) ^ d ≤ q.val then d else d - 1 := by
    rw [qlog2, ← hdd]
    by_cases h0 : 0 ≤ d
    · simp only [h0, if_true]
      apply if_congr _ rfl rfl
      rw [hval, le_div_iff hb, ← zpow_toNat_cast d h0]
      constructor
      · intro h; exact_mod_cast (by rw [mul_comm]; exact_mod_cast h : ((2 ^ d.toNat * q.den : ℕ) : ℚ) ≤ (q.num:ℚ))
      · intro h; exact_mod_cast (by rw [mul_comm]; exact_mod_cast h : ((q.den * 2 ^ d.toNat : ℕ) : ℚ) ≤ (q.num:ℚ))
    · simp only [h0, if_false]
      apply if_congr _ rfl rfl
      have hk : (0:ℤ) ≤ -d := by omega
      have h2k : (0:ℚ) < (2:ℚ) ^ (-d) := zpow_pos two_pos _
      have hcast : (q.den ≤ q.num * 2 ^ (-d).toNat) ↔ ((q.den:ℚ) ≤ (q.num:ℚ) * (2:ℚ) ^ (-d)) := by
        rw [← zpow_toNat_cast (-d) hk]
        constructor <;> intro h <;> exact_mod_cast h
      rw [hval, le_div_iff hb, hcast]
      have e0 : d + -d = 0 := by ring
      constructor
      · intro h
        calc (2:ℚ) ^ d * q.den ≤ (2:ℚ) ^ d * ((q.num:ℚ) * (2:ℚ) ^ (-d)) :=
              mul_le_mul_of_nonneg_left h (zpow_pos two_pos d).le
          _ = (q.num:ℚ) := by
              rw [mul_comm ((q.num:ℚ)) ((2:ℚ) ^ (-d)), ← mul_assoc,
                 ← zpow_add₀ (two_ne_zero : (2:ℚ) ≠ 0), e0, zpow_zero, one_mul]
      · intro h
        calc (q.den:ℚ) = ((2:ℚ) ^ d * q.den) * (2:ℚ) ^ (-d) := by
              rw [mul_comm ((2:ℚ) ^ d) ((q.den:ℚ)), mul_assoc,
                 ← zpow_add₀ (two_ne_zero : (2:ℚ) ≠ 0), e0, zpow_zero, mul_one]
          _ ≤ (q.num:ℚ) * (2:ℚ) ^ (-d) := mul_le_mul_of_nonneg_right h h2k.le
  rw [hq2]
  split_ifs with h
  · exact ⟨h, hhigh⟩
  · refine ⟨hlow.le, ?_⟩
    have hd1 : d - 1 + 1 = d := by ring
    rw [hd1]
    exact lt_of_not_ge h

theorem roundHalfEven_ge_div (A B : ℕ) : A / B ≤ roundHalfEven A B := by
  unfold roundHalfEven
  split_ifs <;> omega

theorem roundHalfEven_mul (m B : ℕ) (hB : 0 < B) : roundHalfEven (m * B) B = m := by
  unfold roundHalfEven
  have h1 : m * B / B = m := Nat.mul_div_cancel m hB
  have h2 : m * B % B = 0 := Nat.mul_mod_left m B
  simp only [h1, h2]
  split_ifs <;> omega

theorem natDiv_cast_gt (A B : ℕ) (hB : 0 < B) :
    (A:ℚ) / (B:ℚ) < ((A / B : ℕ) : ℚ) + 1 := by
  have hBQ : (0:ℚ) < (B:ℚ) := by exact_mod_cast hB
  rw [div_lt_iff hBQ]
  have h : A < (A / B + 1) * B := (Nat.div_lt_iff_lt_mul hB).mp (Nat.lt_succ_self _)
  calc (A:ℚ) < (((A / B + 1) * B : ℕ) : ℚ) := by exact_mod_cast h
    _ = (((A / B : ℕ) : ℚ) + 1) * B := by push_cast; ring

theorem flB_pos (q : NQ) (hd : 0 < q.den) : 0 < flB q := by
  unfold flB
  split_ifs <;> positivity

theorem flAB_val (q : NQ) :
    (flA q : ℚ) / (flB q : ℚ) = q.val * (2:ℚ) ^ (-(flE q)) := by
  unfold flA flB NQ.val
  by_cases he : 0 ≤ flE q
  · simp only [he, if_true]
    rw [Nat.cast_mul, zpow_toNat_cast (flE q) he, ← div_div, zpow_neg, div_eq_mul_inv]
  · simp only [he, if_false]
    have hk : (0:ℤ) ≤ -(flE q) := by omega
    rw [Nat.cast_mul, zpow_toNat_cast (-(flE q)) hk, mul_div_right_comm]

theorem fl_val (q : NQ) (hn : q.num ≠ 0) :
    (fl q).val = (flM q : ℚ) * (2:ℚ) ^ (flE q) := by
  unfold fl
  simp only [hn, if_false]
  by_cases he : 0 ≤ flE q
  · simp only [he, if_true, NQ.val]
    rw [Nat.cast_mul, zpow_toNat_cast (flE q) he, Nat.cast_one, div_one]
  · simp only [he, if_false, NQ.val]
    have hk : (0:ℤ) ≤ -(flE q) := by omega
    rw [zpow_toNat_cast (-(flE q)) hk, zpow_neg, div_eq_mul_inv, inv_inv]

theorem fl_den_pos (q : NQ) : 0 < (fl q).den := by
  unfold fl
  split_ifs <;> simp <;> positivity

theorem fl_exact (q : NQ) (hn : 0 < q.num) (hd : 0 < q.den) (m : ℕ)
    (hm : (m:ℚ) = q.val * (2:ℚ) ^ (-(flE q))) : (fl q).val = q.val := by
  have hB := flB_pos q hd
  have hBQ : (0:ℚ) < (flB q : ℚ) := by exact_mod_cast hB
  have hAeq : flA q = m * flB q := by
    have h1 : (flA q : ℚ) = (m:ℚ) * (flB q : ℚ) := by
      rw [hm, ← flAB_val q]
      field_simp
    exact_mod_cast h1
  have hM : flM q = m := by
    unfold flM
    rw [hAeq]
    exact roundHalfEven_mul m (flB q) hB
  rw [fl_val q (by omega), hM, hm, mul_assoc, ← zpow_add₀ (two_ne_zero : (2:ℚ) ≠ 0)]
  have e0 : -(flE q) + flE q = 0 := by ring
  rw [e0, zpow_zero, mul_one]

theorem flM_cast_gt (q : NQ) (hd : 0 < q.den) :
    q.val * (2:ℚ) ^ (-(flE q)) - 1 < (flM q : ℚ) := by
  have hB := flB_pos q hd
  have h1 : (flA q : ℚ) / (flB q : ℚ) < ((flA q / flB q : ℕ) : ℚ) + 1 :=
    natDiv_cast_gt (flA q) (flB q) hB
  have h2 : ((flA q / flB q : ℕ) : ℚ) ≤ (flM q : ℚ) := by
    exact_mod_cast roundHalfEven_ge_div (flA q) (flB q)
  rw [← flAB_val q]
  linarith

theorem fl_ge_fifty (q : NQ) (hn : 0 < q.num) (hd : 0 < q.den)
    (h50 : (50:ℚ) ≤ q.val) : (50:ℚ) ≤ (fl q).val := by
  have hB := flB_pos q hd
  have hvpos : (0:ℚ) < q.val := lt_of_lt_of_le (by norm_num) h50
  have hmB := flM_cast_gt q hd
  have hval := fl_val q (by omega)
  have h2e : (0:ℚ) < (2:ℚ) ^ (flE q) := zpow_pos two_pos _
  have h2ne : (0:ℚ) < (2:ℚ) ^ (-(flE q)) := zpow_pos two_pos _
  by_cases he : flE q ≤ 1
  · by_contra hlt
    push_neg at hlt
    rw [hval] at hlt
    -- M = 50 * 2 ^ (-e) is a natural number when e ≤ 1
    have hMk : (0:ℤ) ≤ 1 - flE q := by omega
    set M : ℕ := 25 * 2 ^ (1 - flE q).toNat with hM
    have hMval : (M:ℚ) = 50 * (2:ℚ) ^ (-(flE q)) := by
      rw [hM, Nat.cast_mul, zpow_toNat_cast (1 - flE q) hMk]
      have : (1 : ℤ) - flE q = 1 + -(flE q) := by ring
      rw [this, zpow_add₀ (two_ne_zero : (2:ℚ) ≠ 0), zpow_one]
      ring
    have hmM : (flM q : ℚ) < (M:ℚ) := by
      have : (M:ℚ) * (2:ℚ) ^ (flE q) = 50 := by
        rw [hMval, mul_assoc, ← zpow_add₀ (two_ne_zero : (2:ℚ) ≠ 0)]
        norm_num
      have h3 : (flM q : ℚ) * (2:ℚ) ^ (flE q) < (M:ℚ) * (2:ℚ) ^ (flE q) := by
        rw [this]; exact hlt
      exact lt_of_mul_lt_mul_right h3 h2e.le
    have hmM2 : flM q + 1 ≤ M := by exact_mod_cast hmM
    have h50e : (M:ℚ) ≤ q.val * (2:ℚ) ^ (-(flE q)) := by
      rw [hMval]
      exact mul_le_mul_of_nonneg_right h50 h2ne.le
    have hfin : (M:ℚ) < (flM q : ℚ) + 1 := by linarith
    have hfin2 : M < flM q + 1 := by exact_mod_cast hfin
    omega
  · push_neg at he
    -- e ≥ 2 : the value is at least 2 ^ 54
    have hq52 : (2:ℚ) ^ (flE q + 52) ≤ q.val := by
      have := (qlog2_spec q hn hd).1
      have heq : qlog2 q = flE q + 52 := by unfold flE; ring
      rwa [heq] at this
    have hAB : (2:ℚ) ^ (52:ℤ) ≤ (flA q : ℚ) / (flB q : ℚ) := by
      rw [flAB_val q]
      calc (2:ℚ) ^ (52:ℤ) = (2:ℚ) ^ (flE q + 52) * (2:ℚ) ^ (-(flE q)) := by
            rw [← zpow_add₀ (two_ne_zero : (2:ℚ) ≠ 0)]; ring_nf
        _ ≤ q.val * (2:ℚ) ^ (-(flE q)) := mul_le_mul_of_nonneg_right hq52 h2ne.le
    have hBQ : (0:ℚ) < (flB q : ℚ) := by exact_mod_cast hB
    have hA52 : (2:ℚ) ^ (52:ℤ) * (flB q : ℚ) ≤ (flA q : ℚ) := by
      rwa [le_div_iff hBQ] at hAB
    have hm52 : 2 ^ 52 ≤ flM q := by
      have h1 : 2 ^ 52 * flB q ≤ flA q := by
        have : ((2 ^ 52 * flB q : ℕ) : ℚ) ≤ (flA q : ℚ) := by
          push_cast
          calc (2:ℚ) ^ (52:ℕ) * (flB q : ℚ) = (2:ℚ) ^ (52:ℤ) * (flB q : ℚ) := by
                norm_num
            _ ≤ (flA q : ℚ) := hA52
        exact_mod_cast this
      calc 2 ^ 52 ≤ flA q / flB q := (Nat.le_div_iff_mul_le hB).mpr (by omega)
        _ ≤ flM q := roundHalfEven_ge_div _ _
    rw [hval]
    have h2e2 : (2:ℚ) ^ (2:ℤ) ≤ (2:ℚ) ^ (flE q) := by
      apply zpow_le_zpow_right₀ (by norm_num) (by omega)
    calc (50:ℚ) ≤ (2:ℚ) ^ (52:ℕ) * (2:ℚ) ^ (2:ℤ) := by norm_num
      _ ≤ (flM q : ℚ) * (2:ℚ) ^ (flE q) := by
          apply mul_le_mul (by exact_mod_cast hm52) h2e2 (zpow_pos two_pos _).le
          positivity

theorem NQ.ltNat_iff_val (q : NQ) (hd : 0 < q.den) (k : ℕ) :
    q.ltNat k = true ↔ q.val < (k:ℚ) := by
  have hbQ : (0:ℚ) < (q.den:ℚ) := by exact_mod_cast hd
  unfold NQ.ltNat NQ.val
  rw [div_lt_iff hbQ, decide_eq_true_eq]
  constructor
  · intro h
    calc (q.num:ℚ) < ((k * q.den : ℕ) : ℚ) := by exact_mod_cast h
      _ = (k:ℚ) * q.den := by push_cast; ring
  · intro h
    have : (q.num:ℚ) < ((k * q.den : ℕ) : ℚ) := by push_cast; linarith
    exact_mod_cast this

theorem megabyte_cast : ((MEGABYTE : ℕ) : ℚ) = (2:ℚ) ^ (20:ℤ) := by
  norm_num [MEGABYTE]

/-- The clamp condition of `create_segment_table` in exact terms: the float
comparison `to_mb(size) < 50` holds exactly when `size < 50 * 2 ^ 20`. -/
theorem to_mb_lt_fifty_iff (s : ℕ) : (to_mb s).ltNat 50 = true ↔ s < 52428800 := by
  have hMB : 0 < MEGABYTE := by norm_num [MEGABYTE]
  by_cases h0 : s = 0
  · subst h0
    constructor
    · intro _; norm_num
    · intro _
      show (fl ⟨0, MEGABYTE⟩).ltNat 50 = true
      rw [show fl ⟨0, MEGABYTE⟩ = ⟨0, 1⟩ from rfl]
      rfl
  · have hn : 0 < (⟨s, MEGABYTE⟩ : NQ).num := Nat.pos_of_ne_zero h0
    have hd : 0 < (⟨s, MEGABYTE⟩ : NQ).den := hMB
    have hvq : (⟨s, MEGABYTE⟩ : NQ).val = (s:ℚ) / (2:ℚ) ^ (20:ℤ) := by
      unfold NQ.val
      rw [show ((⟨s, MEGABYTE⟩ : NQ).den : ℚ) = ((MEGABYTE : ℕ) : ℚ) from rfl, megabyte_cast]
    have hlt : (to_mb s).ltNat 50 = true ↔ (fl ⟨s, MEGABYTE⟩).val < 50 := by
      have := NQ.ltNat_iff_val (fl ⟨s, MEGABYTE⟩) (fl_den_pos _) 50
      simpa [to_mb, flDiv] using this
    rw [hlt]
    by_cases hs : s < 2 ^ 53
    · -- the division is exact: s / 2^20 is a 53-bit dyadic
      have hv33 : (⟨s, MEGABYTE⟩ : NQ).val < (2:ℚ) ^ (33:ℤ) := by
        rw [hvq, div_lt_iff (zpow_pos two_pos _)]
        rw [← zpow_add₀ (two_ne_zero : (2:ℚ) ≠ 0)]
        norm_num
        exact_mod_cast hs
      have hL : qlog2 ⟨s, MEGABYTE⟩ ≤ 32 := by
        by_contra hcon
        push_neg at hcon
        have h1 := (qlog2_spec ⟨s, MEGABYTE⟩ hn hd).1
        have h2 : (2:ℚ) ^ (33:ℤ) ≤ (2:ℚ) ^ qlog2 ⟨s, MEGABYTE⟩ :=
          zpow_le_zpow_right₀ (by norm_num) (by omega)
        linarith
      have hE : flE ⟨s, MEGABYTE⟩ ≤ -20 := by
        unfold flE; omega
      have hEk : (0:ℤ) ≤ -(flE ⟨s, MEGABYTE⟩) - 20 := by omega
      have hexact : (fl ⟨s, MEGABYTE⟩).val = (⟨s, MEGABYTE⟩ : NQ).val := by
        apply fl_exact _ hn hd (s * 2 ^ ((-(flE ⟨s, MEGABYTE⟩)) - 20).toNat)
        rw [Nat.cast_mul, zpow_toNat_cast _ hEk, hvq]
        rw [div_eq_mul_inv, ← zpow_neg, mul_assoc,
           ← zpow_add₀ (two_ne_zero : (2:ℚ) ≠ 0)]
        congr 1
        ring
      rw [hexact, hvq, div_lt_iff (zpow_pos two_pos _)]
      constructor
      · intro h
        have : (s:ℚ) < 52428800 := by
          calc (s:ℚ) < 50 * (2:ℚ) ^ (20:ℤ) := h
            _ = 52428800 := by norm_num
        exact_mod_cast this
      · intro h
        calc (s:ℚ) < 52428800 := by exact_mod_cast h
          _ = 50 * (2:ℚ) ^ (20:ℤ) := by norm_num
    · -- s ≥ 2^53 : both sides are false
      push_neg at hs
      have hval50 : (50:ℚ) ≤ (⟨s, MEGABYTE⟩ : NQ).val := by
        rw [hvq, le_div_iff (zpow_pos two_pos _)]
        calc (50:ℚ) * (2:ℚ) ^ (20:ℤ) = 52428800 := by norm_num
          _ ≤ ((2 ^ 53 : ℕ) : ℚ) := by norm_num
          _ ≤ (s:ℚ) := by exact_mod_cast hs
      have h1 := fl_ge_fifty _ hn hd hval50
      constructor
      · intro h; linarith
      · intro h
        exfalso
        have : (2:ℕ) ^ 53 ≤ s := hs
        omega

/-! ## Structure of the produced segment table --------------------------- -/

/-- The resolved segment count of a planning call, by cases on the sidecar:
a usable sidecar overrides; otherwise the (possibly clamped) request wins. -/
theorem create_segment_table_segments (url fp : String) (req size : ℕ)
    (etag : EtagV) (sc : Option Progress) :
    (create_segment_table url fp req size etag sc).table.segments
      = match sc with
        | some p =>
            if truthy etag ∧ p.url = url ∧ p.etag = etag then p.segments
            else if 5 < req ∧ (to_mb size).ltNat 50 then 5 else req
        | none => if 5 < req ∧ (to_mb size).ltNat 50 then 5 else req := by
  cases sc <;> rfl

/-- The entries of the produced table are the loop bodies over
`range(segments)` with the resolved segment count. -/
theorem create_segment_table_entries (url fp : String) (req size : ℕ)
    (etag : EtagV) (sc : Option Progress) :
    (create_segment_table url fp req size etag sc).table.entries
      = (List.range (create_segment_table url fp req size etag sc).table.segments).map
          (mkSegEntry fp size (create_segment_table url fp req size etag sc).table.segments) :=
  rfl

theorem segBoundary_zero (size segments : ℕ) : segBoundary size segments 0 = 0 := by
  unfold segBoundary flOfNat
  rw [show fl ⟨0, 1⟩ = ⟨0, 1⟩ from rfl]
  rw [show (partition_size size segments).mul ⟨0, 1⟩
        = ⟨0, (partition_size size segments).den * 1⟩ by unfold NQ.mul; simp]
  rw [show ∀ d, fl ⟨0, d⟩ = ⟨0, 1⟩ from fun d => rfl]
  rfl

theorem sum_range_telescope (f : ℕ → ℤ) (n : ℕ) :
    ((List.range n).map (fun i => f (i + 1) - f i)).sum = f n - f 0 := by
  induction n with
  | zero => simp
  | succ n ih =>
      rw [List.range_succ, List.map_append, List.sum_append, ih]
      simp

/-- Adjacent entries are contiguous: a non-last entry's stored `end` plus one
is the next entry's `start` (both are the shared boundary
`int(partition_size * (i+1))`), for every input — floating-point rounding
cannot break this because both sides evaluate the same float expression. -/
theorem mkSegEntry_contiguous (fp : String) (size n i : ℕ) (h : i + 1 < n) :
    (mkSegEntry fp size n i).end_ + 1 = (mkSegEntry fp size n (i + 1)).start := by
  unfold mkSegEntry
  have hne : i ≠ n - 1 := by omega
  simp only [hne, ne_eq, not_false_eq_true, if_true, ite_not]
  omega

/-- The stored `segment_size` values telescope: their sum is the last
boundary `int(fl(fl(size / n) * fl(n)))` — which is `size` in exact real
arithmetic but can differ under binary64 rounding. -/
theorem segment_sizes_sum (fp : String) (size n : ℕ) :
    (((List.range n).map (mkSegEntry fp size n)).map SegEntry.segment_size).sum
      = (segBoundary size n n : ℤ) := by
  rw [List.map_map]
  have hfun : (SegEntry.segment_size ∘ mkSegEntry fp size n)
      = fun i => (segBoundary size n (i + 1) : ℤ) - (segBoundary size n i : ℤ) := rfl
  rw [hfun]
  have h := sum_range_telescope (fun k => (segBoundary size n k : ℤ)) n
  rw [segBoundary_zero] at h
  simpa using h

/-- The segment sizes of any planning call sum to the truncated float value
`int(fl(fl(size / segments) * fl(segments)))`. -/
theorem sumSizes_eq_last_boundary (url fp : String) (req size : ℕ)
    (etag : EtagV) (sc : Option Progress) :
    sumSizes (create_segment_table url fp req size etag sc).table
      = (segBoundary size (create_segment_table url fp req size etag sc).table.segments
          (create_segment_table url fp req size etag sc).table.segments : ℤ) := by
  rw [sumSizes, create_segment_table_entries, segment_sizes_sum]

/-! ## Claims about the planner ------------------------------------------ -/

set_option maxRecDepth 100000 in
/-- C1 (failing-input evaluation): for `totalSize = 441747257297` (a ~411 GiB
resource, no clamp since it exceeds 50 MB) and `segmentCount = 47` (no
sidecar), the stored `segment_size` values sum to `441747257296 ≠ totalSize`:
binary64 rounding makes `int(fl(fl(size / 47) * 47)) = size - 1`, so the
claimed invariant `Σ segment_size = totalSize` fails on the code, while
contiguity and ordering (proved in general above) do hold. -/
theorem c1_sum_of_sizes_misses_total :
    (create_segment_table "u" "f" 47 441747257297 (EtagV.bool false) none).table.segments = 47
    ∧ sumSizes (create_segment_table "u" "f" 47 441747257297 (EtagV.bool false) none).table
        = 441747257296 := by
  constructor
  · rfl
  · decide

set_option maxRecDepth 10000 in
/-- C2 (counterexample): planning 100 bytes in 4 segments does NOT yield the
ranges `[0,24],[25,49],[50,74],[75,99]` claimed by the specification: the
last segment's stored `end` is kept at `int(25.0 * 4) = 100`, one past the
final byte. -/
theorem c2_last_range_differs :
    ((create_segment_table "u" "f" 4 100 (EtagV.str "e") none).table.entries.map
      fun e => (e.start, e.end_, e.segment_size))
      ≠ [(0, 24, 25), (25, 49, 25), (50, 74, 25), (75, 99, 25)] := by
  decide

set_option maxRecDepth 10000 in
/-- C2 (amended): planning a 100-byte resource with `segmentCount = 4` and no
usable sidecar yields `(start, end, segment_size)` triples
`(0,24,25), (25,49,25), (50,74,25), (75,100,25)` — each size is 25 and the
first three ranges are as claimed, but the last stored `end` is 100 (one past
the final byte; its `segment_size` 25 accounts for the overshoot). -/
theorem c2_segment_ranges_100_4 (url fp : String) (etag : EtagV) :
    ((create_segment_table url fp 4 100 etag none).table.entries.map
      fun e => (e.start, e.end_, e.segment_size))
      = [(0, 24, 25), (25, 49, 25), (50, 74, 25), (75, 100, 25)] := by
  show (((List.range 4).map (mkSegEntry fp 100 4)).map
      fun e => (e.start, e.end_, e.segment_size)) = _
  rfl

/-- C3: resolution of the segment count.  A usable sidecar (present,
parseable, matching url, truthy and matching etag) overrides; otherwise the
fresh value is in force: clamped to 5 when more than 5 segments are requested
for a resource under 50 MB (52428800 bytes), the request itself otherwise.
A missing/unreadable sidecar is `sidecar = none` (the source swallows every
read or parse error: `try/except: pass`), so the function never raises. -/
theorem c3_segment_count_resolution (url fp : String) (req size : ℕ)
    (etag : EtagV) (sc : Option Progress) :
    (∀ p, sc = some p → truthy etag = true → p.url = url → p.etag = etag →
        (create_segment_table url fp req size etag sc).table.segments = p.segments)
    ∧ ((∀ p, sc = some p → ¬(truthy etag = true ∧ p.url = url ∧ p.etag = etag)) →
        ((5 < req ∧ size < 52428800 →
            (create_segment_table url fp req size etag sc).table.segments = 5)
         ∧ (¬(5 < req ∧ size < 52428800) →
            (create_segment_table url fp req size etag sc).table.segments = req))) := by
  rw [create_segment_table_segments]
  cases sc with
  | none =>
      constructor
      · intro p hp
        cases hp
      · intro hmis
        constructor
        · rintro ⟨h5, h50⟩
          have hmb : (to_mb size).ltNat 50 = true := (to_mb_lt_fifty_iff size).mpr h50
          simp [h5, hmb]
        · intro hng
          have hneg : ¬(5 < req ∧ (to_mb size).ltNat 50 = true) := by
            intro hc
            exact hng ⟨hc.1, (to_mb_lt_fifty_iff size).mp hc.2⟩
          simp at hneg ⊢
          intro h5
          rcases hneg h5 with h
          simp [h]
  | some p =>
      constructor
      · intro p2 hp2 ht hu he
        cases hp2
        simp [ht, hu, he]
      · intro hmis
        have hno : ¬(truthy etag = true ∧ p.url = url ∧ p.etag = etag) :=
          hmis p rfl
        simp only [hno, if_false]
        constructor
        · rintro ⟨h5, h50⟩
          have hmb : (to_mb size).ltNat 50 = true := (to_mb_lt_fifty_iff size).mpr h50
          simp [h5, hmb]
        · intro hng
          have : ¬(5 < req ∧ (to_mb size).ltNat 50 = true) := by
            intro hc
            exact hng ⟨hc.1, (to_mb_lt_fifty_iff size).mp hc.2⟩
          simp at this ⊢
          intro h5
          rcases this h5 with h
          simp [h]

/-- C3 (witness): the spec's own example — 8 requested segments for a 10 MB
resource, no sidecar — resolves to 5. -/
theorem c3_segment_count_resolution_witness :
    (create_segment_table "u" "f" 8 10485760 (EtagV.bool false) none).table.segments = 5 := by
  have h := c3_segment_count_resolution "u" "f" 8 10485760 (EtagV.bool false) none
  exact (h.2 (fun p hp => by cases hp)).1 ⟨by norm_num, by norm_num⟩

/-- C8 (counterexample): the sidecar written for a 4-segment plan holds
exactly the keys `url`, `etag`, `segments` — there is no per-segment entry
(no key `"0"`), contrary to the claim. -/
theorem c8_sidecar_has_no_segment_entries :
    (create_segment_table "u" "f" 4 100 (EtagV.str "e") none).table.segments = 4
    ∧ ((create_segment_table "u" "f" 4 100 (EtagV.str "e") none).written.map Prod.fst
        = ["url", "etag", "segments"])
    ∧ (∀ kv ∈ (create_segment_table "u" "f" 4 100 (EtagV.str "e") none).written,
        kv.fst ≠ "0") := by
  refine ⟨rfl, rfl, ?_⟩
  decide

/-- C8 (amended): before returning, `create_segment_table` always (re)writes
the sidecar, overwriting any prior content, as the JSON object with exactly
the keys `url`, `etag` and the resolved `segments` count; the per-segment
entries exist only in the returned in-memory dictionary, not in the
sidecar. -/
theorem c8_sidecar_written (url fp : String) (req size : ℕ) (etag : EtagV)
    (sc : Option Progress) :
    (create_segment_table url fp req size etag sc).written
      = [("url", JVal.str url), ("etag", etagJVal etag),
         ("segments", JVal.int ((create_segment_table url fp req size etag sc).table.segments : ℤ))] :=
  rfl

/-! ## Claims about the combiner ----------------------------------------- -/

theorem copyLoop_spec : ∀ n (src dest : List ℕ), src.length ≤ n →
    copyLoop src dest = dest ++ src := by
  intro n
  induction n with
  | zero =>
      intro src dest h
      have hsrc : src = [] := List.length_eq_zero.mp (Nat.le_zero.mp h)
      rw [copyLoop, if_pos hsrc, hsrc, List.append_nil]
  | succ n ih =>
      intro src dest h
      rw [copyLoop]
      split_ifs with hs
      · rw [hs, List.append_nil]
      · have hpos : 0 < src.length := List.length_pos.mpr hs
        have hlen : (src.drop CHUNKSIZE).length ≤ n := by
          rw [List.length_drop]
          have hc : 0 < CHUNKSIZE := by decide
          omega
        rw [ih _ _ hlen, List.append_assoc, List.take_append_drop]

theorem copyLoop_eq (src dest : List ℕ) : copyLoop src dest = dest ++ src :=
  copyLoop_spec src.length src dest le_rfl

theorem combine_foldl_spec (fp : String) (contents : ℕ → List ℕ) :
    ∀ n (acc : List ℕ × List FsEvent),
      (List.range n).foldl (combineStep fp contents) acc
        = (acc.1 ++ ((List.range n).map contents).join,
           acc.2 ++ ((List.range n).map fun i =>
              [FsEvent.copied (fp ++ "." ++ toString i),
               FsEvent.unlinked (fp ++ "." ++ toString i)]).join) := by
  intro n
  induction n with
  | zero => intro acc; simp
  | succ n ih =>
      intro acc
      rw [List.range_succ, List.foldl_append, ih]
      simp only [List.foldl_cons, List.foldl_nil, combineStep, copyLoop_eq,
        List.map_append, List.map_cons, List.map_nil, List.join_append]
      simp [List.append_assoc]

/-- C7: `combine_files` writes into the destination exactly the concatenation
of the segment files `file_path.0 .. file_path.(segments-1)` in strictly
increasing index order; each segment file is unlinked immediately after its
bytes are copied, and the sidecar `file_path + ".json"` is unlinked after all
segments are merged — as witnessed by the full event trace. -/
theorem c7_combine_concatenates_in_order (fp : String) (contents : ℕ → List ℕ) (n : ℕ) :
    (combine_files fp contents n).1 = ((List.range n).map contents).join
    ∧ (combine_files fp contents n).2
        = (((List.range n).map fun i =>
            [FsEvent.copied (fp ++ "." ++ toString i),
             FsEvent.unlinked (fp ++ "." ++ toString i)]).join
          ++ [FsEvent.unlinked (fp ++ ".json")]) := by
  unfold combine_files
  rw [combine_foldl_spec]
  simp

/-! ## Claims about the download loop ------------------------------------ -/

/-- The chunk loop does not touch `completed`, `interrupt`, `logs`, `slept`,
`gets` or `id`, and only ever appends to the open file. -/
theorem downloadLoop_fields (flag : ℕ → Bool) : ∀ (cs : List ℕ) (i : ℕ) (st : DState),
    ((downloadLoop flag cs i st).1).completed = st.completed
    ∧ ((downloadLoop flag cs i st).1).interrupt = st.interrupt
    ∧ ((downloadLoop flag cs i st).1).logs = st.logs
    ∧ ((downloadLoop flag cs i st).1).slept = st.slept
    ∧ ((downloadLoop flag cs i st).1).gets = st.gets
    ∧ ((downloadLoop flag cs i st).1).id = st.id
    ∧ st.file ≤ ((downloadLoop flag cs i st).1).file := by
  intro cs
  induction cs with
  | nil => intro i st; simp [downloadLoop]
  | cons c rest ih =>
      intro i st
      simp only [downloadLoop]
      split_ifs with hf
      · simp
      · obtain ⟨h1, h2, h3, h4, h5, h6, h7⟩ := ih (i + 1)
          { st with file := st.file + c, curr := st.curr + c,
                    chunksWritten := st.chunksWritten + 1 }
      
        refine ⟨h1, h2, h3, h4, h5, h6, ?_⟩
        simp at h7
        omega

/-- The `break` decision of the loop depends only on the flag trace and the
chunk count, not on the worker state. -/
theorem downloadLoop_broke_indep (flag : ℕ → Bool) :
    ∀ (cs : List ℕ) (i : ℕ) (st st2 : DState),
      (downloadLoop flag cs i st).2 = (downloadLoop flag cs i st2).2 := by
  intro cs
  induction cs with
  | nil => intro i st st2; rfl
  | cons c rest ih =>
      intro i st st2
      simp only [downloadLoop]
      split_ifs with hf
      · rfl
      · exact ih (i + 1) _ _

/-- Whether the chunk loop of a `requests.get` call with environment `env`
exits via the cancellation `break` (computed on a fresh state). -/
def loopBroke (env : Env) : Bool :=
  (downloadLoop env.flag env.chunks 0 (initState 0)).2

/-- C6: when the transport raises (after the received chunks, with no
cancellation `break` before that), `Basicdown.download` sets the shared
event, sleeps one second, appends exactly one diagnostic carrying the worker
id and the error class and message, does not touch `completed`, made exactly
one `requests.get` call (no retry), and returns normally (it is a total
function — the `except` clause swallows the exception). -/
theorem c6_transport_error_handling (env : Env) (mode : Mode) (st : DState)
    (herr : env.errAtEnd = true) (hnb : loopBroke env = false) :
    (Basicdown.download env mode st).interrupt = true
    ∧ (Basicdown.download env mode st).slept = st.slept + 1
    ∧ (Basicdown.download env mode st).logs
        = st.logs ++ [⟨st.id, env.errClass, env.errMsg⟩]
    ∧ (Basicdown.download env mode st).completed = st.completed
    ∧ (Basicdown.download env mode st).gets = st.gets + 1 := by
  unfold Basicdown.download
  set st1 : DState := { st with gets := st.gets + 1,
                                file := if mode = Mode.wb then 0 else st.file } with hst1
  obtain ⟨h1, h2, h3, h4, h5, h6, h7⟩ := downloadLoop_fields env.flag env.chunks 0 st1
  have hbroke : (downloadLoop env.flag env.chunks 0 st1).2 = false := by
    rw [downloadLoop_broke_indep env.flag env.chunks 0 st1 (initState 0)]
    exact hnb
  rw [if_pos (show (downloadLoop env.flag env.chunks 0 st1).2 = false
        ∧ env.errAtEnd = true from ⟨hbroke, herr⟩)]
  refine ⟨rfl, ?_, ?_, ?_, ?_⟩
  · rw [h4]
  · rw [h3, h6]
  · rw [h1]
  · rw [h5]

/-- C6 (witness): a connection error before any chunk arrives, observed from a
fresh worker state with id 3. -/
theorem c6_transport_error_handling_witness :
    (Basicdown.download ⟨[], true, "ConnectionError", "connection reset", fun _ => false⟩
        Mode.ab { initState 3 with id := 3 }).interrupt = true
    ∧ (Basicdown.download ⟨[], true, "ConnectionError", "connection reset", fun _ => false⟩
        Mode.ab { initState 3 with id := 3 }).slept = { initState 3 with id := 3 }.slept + 1
    ∧ (Basicdown.download ⟨[], true, "ConnectionError", "connection reset", fun _ => false⟩
        Mode.ab { initState 3 with id := 3 }).logs
        = { initState 3 with id := 3 }.logs
          ++ [⟨{ initState 3 with id := 3 }.id, "ConnectionError", "connection reset"⟩]
    ∧ (Basicdown.download ⟨[], true, "ConnectionError", "connection reset", fun _ => false⟩
        Mode.ab { initState 3 with id := 3 }).completed = { initState 3 with id := 3 }.completed
    ∧ (Basicdown.download ⟨[], true, "ConnectionError", "connection reset", fun _ => false⟩
        Mode.ab { initState 3 with id := 3 }).gets = { initState 3 with id := 3 }.gets + 1 :=
  c6_transport_error_handling
    ⟨[], true, "ConnectionError", "connection reset", fun _ => false⟩
    Mode.ab { initState 3 with id := 3 } rfl rfl

/-- The chunk counter grows by at most `k + 1` once the flag reads true at
poll index `i + k`: the loop polls once after writing each chunk and breaks
as soon as the poll reads true. -/
theorem downloadLoop_chunk_bound (flag : ℕ → Bool) :
    ∀ (cs : List ℕ) (k i : ℕ) (st : DState), flag (i + k) = true →
      ((downloadLoop flag cs i st).1).chunksWritten ≤ st.chunksWritten + (k + 1) := by
  intro cs
  induction cs with
  | nil =>
      intro k i st h
      simp [downloadLoop]
  | cons c rest ih =>
      intro k i st h
      simp only [downloadLoop]
      split_ifs with hf
      · simp
      · have hk : k ≠ 0 := by
          intro h0
          subst h0
          rw [Nat.add_zero] at h
          exact hf h
        obtain ⟨k2, rfl⟩ : ∃ k2, k = k2 + 1 := ⟨k - 1, by omega⟩
        have hsh : flag ((i + 1) + k2) = true := by
          have : (i + 1) + k2 = i + (k2 + 1) := by omega
          rw [this]
          exact h
        have := ih k2 (i + 1)
          { st with file := st.file + c, curr := st.curr + c,
                    chunksWritten := st.chunksWritten + 1 } hsh
        simp at this ⊢
        omega

/-- The error branch of `Basicdown.download` only touches `interrupt`,
`slept` and `logs`: the chunk counter, `completed` and the file bytes are
those left by the chunk loop. -/
theorem download_loop_proj (env : Env) (mode : Mode) (st : DState) :
    (Basicdown.download env mode st).chunksWritten
      = ((downloadLoop env.flag env.chunks 0
          { st with gets := st.gets + 1,
                    file := if mode = Mode.wb then 0 else st.file }).1).chunksWritten
    ∧ (Basicdown.download env mode st).completed
      = ((downloadLoop env.flag env.chunks 0
          { st with gets := st.gets + 1,
                    file := if mode = Mode.wb then 0 else st.file }).1).completed
    ∧ (Basicdown.download env mode st).file
      = ((downloadLoop env.flag env.chunks 0
          { st with gets := st.gets + 1,
                    file := if mode = Mode.wb then 0 else st.file }).1).file := by
  simp only [Basicdown.download]
  split_ifs <;> exact ⟨rfl, rfl, rfl⟩

/-- C9: once the shared cancellation flag reads true at the poll that follows
chunk `k`, the download call writes at most `k + 1` chunks in total, never
marks completion (neither the loop nor the error branch touches
`completed`), and in append mode the partial file only grows — the bytes
already on disk remain for a later resume. -/
theorem c9_cancellation_bounds_chunks (env : Env) (mode : Mode) (st : DState)
    (k : ℕ) (hk : env.flag k = true) :
    (Basicdown.download env mode st).chunksWritten ≤ st.chunksWritten + (k + 1)
    ∧ (Basicdown.download env mode st).completed = st.completed
    ∧ (mode = Mode.ab → st.file ≤ (Basicdown.download env mode st).file) := by
  obtain ⟨hpc, hpm, hpf⟩ := download_loop_proj env mode st
  set st1 : DState := { st with gets := st.gets + 1,
                                file := if mode = Mode.wb then 0 else st.file } with hst1
  obtain ⟨h1, _h2, _h3, _h4, _h5, _h6, h7⟩ := downloadLoop_fields env.flag env.chunks 0 st1
  have hcb := downloadLoop_chunk_bound env.flag env.chunks k 0 st1 (by simpa using hk)
  refine ⟨?_, ?_, ?_⟩
  · rw [hpc]
    simpa using hcb
  · rw [hpm, h1]
  · intro hab
    rw [hpf]
    have hfile : st1.file = st.file := by
      rw [hst1, hab]
      rfl
    calc st.file = st1.file := hfile.symm
      _ ≤ _ := h7

/-- C9 (witness): with the flag already set at the first poll and three
pending chunks, at most one chunk is written and `completed` stays false. -/
theorem c9_cancellation_bounds_chunks_witness :
    (Basicdown.download ⟨[5, 7, 9], false, "", "", fun _ => true⟩ Mode.ab
        (initState 2)).chunksWritten ≤ (initState 2).chunksWritten + (0 + 1)
    ∧ (Basicdown.download ⟨[5, 7, 9], false, "", "", fun _ => true⟩ Mode.ab
        (initState 2)).completed = (initState 2).completed
    ∧ (Mode.ab = Mode.ab → (initState 2).file
        ≤ (Basicdown.download ⟨[5, 7, 9], false, "", "", fun _ => true⟩ Mode.ab
            (initState 2)).file) :=
  c9_cancellation_bounds_chunks ⟨[5, 7, 9], false, "", "", fun _ => true⟩ Mode.ab
    (initState 2) 0 rfl

/-! ## Claims about the workers ------------------------------------------ -/

theorem download_completed_unchanged (env : Env) (mode : Mode) (st : DState) :
    (Basicdown.download env mode st).completed = st.completed := by
  obtain ⟨_, hpm, _⟩ := download_loop_proj env mode st
  rw [hpm]
  exact (downloadLoop_fields env.flag env.chunks 0 _).1

/-- C4: resume detection of `Multidown.worker` for an existing segment file
of size `k`.  If `k` exceeds the planned `segment_size` the file is deleted
and `curr` starts at 0; otherwise `curr` starts at `k`, and when `k` is
short of the plan the worker issues one ranged GET
`bytes=(start + k)-(end)` opening the segment file in append mode. -/
theorem c4_resume_detection (url : String) (sid : ℕ) (e : SegEntry) (k : ℕ)
    (env : Env) :
    ((k : ℤ) > e.segment_size →
        (Multidown.worker url sid e (some k) env).deleted = true
        ∧ (Multidown.worker url sid e (some k) env).resumeOffset = 0)
    ∧ ((k : ℤ) ≤ e.segment_size →
        (Multidown.worker url sid e (some k) env).deleted = false
        ∧ (Multidown.worker url sid e (some k) env).resumeOffset = k
        ∧ ((k : ℤ) < e.segment_size →
            (Multidown.worker url sid e (some k) env).request
              = some ⟨"bytes=" ++ toString (e.start + (k : ℤ)) ++ "-"
                  ++ toString e.end_, Mode.ab⟩)) := by
  constructor
  · intro hgt
    unfold Multidown.worker
    simp only [hgt, if_true]
    split_ifs <;> exact ⟨rfl, rfl⟩
  · intro hle
    have hngt : ¬((k : ℤ) > e.segment_size) := by omega
    unfold Multidown.worker
    simp only [hngt, if_false]
    refine ⟨?_, ?_, ?_⟩
    · split_ifs <;> rfl
    · split_ifs <;> rfl
    · intro hlt
      have hlt2 : ((({ initState sid with curr := k, file := k } : DState).curr : ℤ)
          < e.segment_size) := hlt
      rw [if_pos hlt2]

/-- C4 (witness): a 30-byte file against a 25-byte plan is deleted; a 10-byte
file against the plan `[0,24]`, size 25, resumes with a ranged GET from
byte 10 in append mode. -/
theorem c4_resume_detection_witness :
    ((Multidown.worker "u" 0 ⟨0, 24, 25, "f.0"⟩ (some 30)
        ⟨[], false, "", "", fun _ => false⟩).deleted = true)
    ∧ ((Multidown.worker "u" 0 ⟨0, 24, 25, "f.0"⟩ (some 10)
        ⟨[], false, "", "", fun _ => false⟩).resumeOffset = 10)
    ∧ ((Multidown.worker "u" 0 ⟨0, 24, 25, "f.0"⟩ (some 10)
        ⟨[], false, "", "", fun _ => false⟩).request
        = some ⟨"bytes=" ++ toString ((0 : ℤ) + (10 : ℤ)) ++ "-" ++ toString (24 : ℤ),
            Mode.ab⟩) :=
  ⟨((c4_resume_detection "u" 0 ⟨0, 24, 25, "f.0"⟩ 30
      ⟨[], false, "", "", fun _ => false⟩).1 (by decide)).1,
   ((c4_resume_detection "u" 0 ⟨0, 24, 25, "f.0"⟩ 10
      ⟨[], false, "", "", fun _ => false⟩).2 (by decide)).2.1,
   (((c4_resume_detection "u" 0 ⟨0, 24, 25, "f.0"⟩ 10
      ⟨[], false, "", "", fun _ => false⟩).2 (by decide)).2.2 (by decide))⟩

theorem markCompleted_completed_iff (e : SegEntry) (st : DState)
    (h : st.completed = false) :
    (markCompleted e st).completed = true
      ↔ ((markCompleted e st).curr : ℤ) = e.segment_size := by
  unfold markCompleted
  split_ifs with hc
  · exact ⟨fun _ => hc, fun _ => rfl⟩
  · rw [h]
    simp [hc]

/-- C5 (counterexample): completion is not tied to a normal, uncancelled
stream end.  A `Simpledown` worker whose transport errors after 3 bytes
still marks `completed = true` (and has set the shared interrupt); a
`Multidown` worker whose loop exits via the cancellation `break` right after
the final chunk also marks `completed = true`. -/
theorem c5_completed_despite_abnormal_exit :
    (Simpledown.worker "u" "f"
        ⟨[3], true, "ConnectionError", "reset", fun _ => false⟩).completed = true
    ∧ (Simpledown.worker "u" "f"
        ⟨[3], true, "ConnectionError", "reset", fun _ => false⟩).interrupt = true
    ∧ (Multidown.worker "u" 1 ⟨0, 4, 5, "f.0"⟩ none
        ⟨[5], false, "", "", fun _ => true⟩).st.completed = true
    ∧ loopBroke ⟨[5], false, "", "", fun _ => true⟩ = true := by
  refine ⟨rfl, rfl, rfl, rfl⟩

/-- C5 (amended): a `Multidown` worker marks `completed = true` exactly when
`curr` equals the planned `segment_size` when its download call returns —
however the loop exited (normal end, cancellation, or an error swallowed
after all bytes arrived); a `Simpledown` worker sets `completed = true`
unconditionally after its download call returns, even on cancellation or a
transport error. -/
theorem c5_completed_characterisation (url : String) (sid : ℕ) (e : SegEntry)
    (ex : Option ℕ) (env : Env) :
    ((Multidown.worker url sid e ex env).st.completed = true
      ↔ ((Multidown.worker url sid e ex env).st.curr : ℤ) = e.segment_size)
    ∧ (∀ (url2 fp2 : String) (env2 : Env),
        (Simpledown.worker url2 fp2 env2).completed = true) := by
  refine ⟨?_, fun url2 fp2 env2 => rfl⟩
  unfold Multidown.worker
  dsimp only
  split_ifs with h1
  · apply markCompleted_completed_iff
    rw [download_completed_unchanged]
    rfl
  · apply markCompleted_completed_iff
    rfl

/-- C10: when the segment file already has exactly the planned size, the
worker issues no HTTP request at all (`gets = 0`, no ranged request), does
not delete the file, and marks `completed = true` purely from local state. -/
theorem c10_full_segment_no_request (url : String) (sid : ℕ) (e : SegEntry)
    (k : ℕ) (env : Env) (hk : (k : ℤ) = e.segment_size) :
    (Multidown.worker url sid e (some k) env).request = none
    ∧ (Multidown.worker url sid e (some k) env).st.gets = 0
    ∧ (Multidown.worker url sid e (some k) env).st.completed = true
    ∧ (Multidown.worker url sid e (some k) env).deleted = false := by
  have hngt : ¬((k : ℤ) > e.segment_size) := by omega
  have hnlt : ¬(((({ initState sid with curr := k, file := k } : DState).curr : ℤ))
      < e.segment_size) := by
    simp only []
    omega
  unfold Multidown.worker
  simp only [hngt, if_false]
  rw [if_neg hnlt]
  refine ⟨rfl, ?_, ?_, rfl⟩
  · show (markCompleted e { initState sid with curr := k, file := k }).gets = 0
    unfold markCompleted
    split_ifs <;> rfl
  · show (markCompleted e { initState sid with curr := k, file := k }).completed = true
    unfold markCompleted
    rw [if_pos hk]

/-- C10 (witness): a 25-byte segment file for the plan `[0,24]`, size 25. -/
theorem c10_full_segment_no_request_witness :
    (Multidown.worker "u" 0 ⟨0, 24, 25, "f.0"⟩ (some 25)
        ⟨[9], false, "", "", fun _ => false⟩).request = none
    ∧ (Multidown.worker "u" 0 ⟨0, 24, 25, "f.0"⟩ (some 25)
        ⟨[9], false, "", "", fun _ => false⟩).st.gets = 0
    ∧ (Multidown.worker "u" 0 ⟨0, 24, 25, "f.0"⟩ (some 25)
        ⟨[9], false, "", "", fun _ => false⟩).st.completed = true
    ∧ (Multidown.worker "u" 0 ⟨0, 24, 25, "f.0"⟩ (some 25)
        ⟨[9], false, "", "", fun _ => false⟩).deleted = false :=
  c10_full_segment_no_request "u" 0 ⟨0, 24, 25, "f.0"⟩ 25
    ⟨[9], false, "", "", fun _ => false⟩ rfl
